import Mathlib

/-!
Verification of the checkpoint extraction pipeline (`scripts/generate_checkpoint.py`)
and the log cleaner (`scripts/clean_logs.py`).

Text is modelled as `List Char`, byte sequences as `List Nat` (each element a byte
value `< 256`), and machine integers as `Nat`/`Int`.  Python's fallible functions are
modelled with `Except`/`Option`.
-/

/-! ### Character classification and hex digits

Embeds the regex character class `[0-9a-fA-F]` from `extract_hex_strings` and the
semantics of Python's `int(s, 16)` on hex-digit strings. -/

def isHexDig (c : Char) : Bool :=
  ('0' ≤ c && c ≤ '9') || ('a' ≤ c && c ≤ 'f') || ('A' ≤ c && c ≤ 'F')

def hexDigVal (c : Char) : Nat :=
  if '0' ≤ c && c ≤ '9' then c.toNat - '0'.toNat
  else if 'a' ≤ c && c ≤ 'f' then c.toNat - 'a'.toNat + 10
  else if 'A' ≤ c && c ≤ 'F' then c.toNat - 'A'.toNat + 10
  else 0

/-- Python's `int(s, 16)` on a string of hex digits. -/
def int16 (s : List Char) : Nat :=
  s.foldl (fun a c => 16 * a + hexDigVal c) 0

/-! ### `extract_hex_strings` (generate_checkpoint.py, lines 21-35)

`re.findall(r'\\x([0-9a-fA-F]{2})', content)` scans left to right; at each position a
match requires a backslash, the letter `x` and exactly two hex digits, consumes those
four characters, and captures the two digits; on failure the scan advances one
character. -/

def scanHex : Nat → List Char → List (List Char)
  | _, [] => []
  | 0, _ :: _ => []
  | fuel + 1, c :: rest =>
    if c == '\\' then
      match rest with
      | x :: h1 :: h2 :: rest2 =>
        if x == 'x' && isHexDig h1 && isHexDig h2 then
          [h1, h2] :: scanHex fuel rest2
        else
          scanHex fuel (x :: h1 :: h2 :: rest2)
      | short => scanHex fuel short
    else
      scanHex fuel rest

/-- The regex scan on a whole input.  The fuel is the input length: every scan step
consumes at least one character and one unit of fuel, so the fuel never runs out
(structural recursion on the fuel keeps the definition kernel-computable). -/
def re_findall_hex (content : List Char) : List (List Char) :=
  scanHex content.length content

/-- Embedding of `extract_hex_strings`: find all hex-escape captures, then convert
each with `int(hex_str, 16)` (bytes are collected in match order). -/
def extract_hex_strings (content : List Char) : List Nat :=
  (re_findall_hex content).map int16

/-- Modelled from the spec (section 4.2 `decode`), fuelled like `scanHex`: scan left
to right for tokens "a backslash, the letter x, then exactly two hexadecimal
digits"; each token contributes exactly one byte whose value is the two hex digits
read base-16, in left-to-right order of appearance. -/
def specScan : Nat → List Char → List Nat
  | _, [] => []
  | 0, _ :: _ => []
  | fuel + 1, c :: rest =>
    if c == '\\' then
      match rest with
      | x :: h1 :: h2 :: rest2 =>
        if x == 'x' && isHexDig h1 && isHexDig h2 then
          (16 * hexDigVal h1 + hexDigVal h2) :: specScan fuel rest2
        else
          specScan fuel (x :: h1 :: h2 :: rest2)
      | short => specScan fuel short
    else
      specScan fuel rest

/-- The spec's `decode`, used to compare the source's `extract_hex_strings` against
the spec's description. -/
def spec_decode (l : List Char) : List Nat :=
  specScan l.length l

/-- True iff the text begins with a hex-escape token
(backslash, `x`, two hex digits). -/
def startsWithEscape : List Char → Bool
  | bs :: x :: h1 :: h2 :: _ => bs == '\\' && (x == 'x' && isHexDig h1 && isHexDig h2)
  | _ => false

/-- True iff some position of the text starts a hex-escape token. -/
def hasEscapeToken : List Char → Bool
  | [] => false
  | c :: rest => startsWithEscape (c :: rest) || hasEscapeToken rest

/-! ### String searching

`listPrefixOf needle hay` models Python's `hay.startswith(needle)`;
`strFind needle hay` models `hay.find(needle)` (index of the leftmost occurrence);
`findCharFrom ch content start` models `content.find(ch, start)`. -/

def listPrefixOf : List Char → List Char → Bool
  | [], _ => true
  | _ :: _, [] => false
  | a :: as, b :: bs => a == b && listPrefixOf as bs

def strFind (needle : List Char) : List Char → Option Nat
  | [] => if listPrefixOf needle [] then some 0 else none
  | l@(_ :: rest) =>
    if listPrefixOf needle l then some 0 else (strFind needle rest).map (· + 1)

def findCharFrom (ch : Char) (content : List Char) (start : Nat) : Option Nat :=
  (strFind [ch] (content.drop start)).map (· + start)

/-- Declarative occurrence predicate: `needle` occurs in `hay` at index `i`. -/
def occursAt (needle hay : List Char) (i : Nat) : Prop :=
  listPrefixOf needle (hay.drop i) = true

instance (needle hay : List Char) (i : Nat) : Decidable (occursAt needle hay i) := by
  unfold occursAt; infer_instance

/-! ### Brace balancing (generate_checkpoint.py, lines 56-70)

`braceScan l count i` models the loop `for i in range(brace_start, len(content))`:
`count` is `brace_count` when position `i` is about to be processed, and the result is
the index at which the loop `break`s (the first `}` whose decrement brings the counter
to 0), or `none` if the loop runs to the end of the input without breaking. -/

def braceScan : List Char → Int → Nat → Option Nat
  | [], _, _ => none
  | c :: rest, count, i =>
    if c == '\x7b' then braceScan rest (count + 1) (i + 1)
    else if c == '\x7d' then
      if count - 1 = 0 then some i else braceScan rest (count - 1) (i + 1)
    else braceScan rest count (i + 1)

/-- Net brace depth of a character list: +1 for each `{`, -1 for each `}`. -/
def braceDelta : List Char → Int
  | [] => 0
  | c :: rest =>
    (if c == '\x7b' then 1 else if c == '\x7d' then -1 else 0) + braceDelta rest

/-! ### `extract_checkpoint_array` (generate_checkpoint.py, lines 38-75) -/

/-- Error cases of `extract_checkpoint_array`, one per `raise ValueError` site.
The spec's `NotFoundError` is `notFound`; its `MalformedLiteralError` covers both
`noOpenBrace` and `unbalanced`. -/
inductive ExtractError where
  | notFound
  | noOpenBrace
  | unbalanced
deriving DecidableEq, Repr

/-- The search token used at line 47: `content.find('HSK_CHECKPOINT_MAIN[')`. -/
def hskNameBracket : List Char := "HSK_CHECKPOINT_MAIN[".toList

/-- The bare array name, without the following bracket. -/
def hskName : List Char := "HSK_CHECKPOINT_MAIN".toList

/-- Embedding of `extract_checkpoint_array` (operating on the already-read file
content).  Mirrors the source line by line: find the token `HSK_CHECKPOINT_MAIN[`;
find the first `{` at or after it; run the brace-counting loop; if the loop breaks,
return the slice `content[brace_start+1 : brace_end]`; if the loop runs off the end,
raise when the final count is nonzero, otherwise return
`content[brace_start+1 : brace_start]` (the loop's initial `brace_end`). -/
def extract_checkpoint_array (content : List Char) : Except ExtractError (List Char) :=
  match strFind hskNameBracket content with
  | none => .error .notFound
  | some array_start =>
    match findCharFrom '\x7b' content array_start with
    | none => .error .noOpenBrace
    | some brace_start =>
      match braceScan (content.drop brace_start) 0 brace_start with
      | some brace_end =>
        .ok ((content.drop (brace_start + 1)).take (brace_end - (brace_start + 1)))
      | none =>
        if braceDelta (content.drop brace_start) ≠ 0 then .error .unbalanced
        else .ok ((content.drop (brace_start + 1)).take (brace_start - (brace_start + 1)))

/-- Modelled from the claim's wording for the locator: find the first occurrence of
the bare name (not of name-plus-bracket), then the first `{` at or after that
position, then brace-balance.  Used to compare the source's behaviour against the
claim's description. -/
def claim_locate (content : List Char) : Except ExtractError (List Char) :=
  match strFind hskName content with
  | none => .error .notFound
  | some name_start =>
    match findCharFrom '\x7b' content name_start with
    | none => .error .noOpenBrace
    | some brace_start =>
      match braceScan (content.drop brace_start) 0 brace_start with
      | some brace_end =>
        .ok ((content.drop (brace_start + 1)).take (brace_end - (brace_start + 1)))
      | none =>
        if braceDelta (content.drop brace_start) ≠ 0 then .error .unbalanced
        else .ok ((content.drop (brace_start + 1)).take (brace_start - (brace_start + 1)))

/-! ### Validation (generate_checkpoint.py, lines 107-128) -/

/-- Expected size computed at line 108: `4 + 32 + (150 * 236)`. -/
def expected_size : Nat := 4 + 32 + 150 * 236

/-- Expected checkpoint height checked at line 125. -/
def expected_height : Nat := 136000

/-- Height computation of line 122:
`(b[0] << 24) | (b[1] << 16) | (b[2] << 8) | b[3]`. -/
def beHeight (b0 b1 b2 b3 : Nat) : Nat :=
  (b0 <<< 24) ||| (b1 <<< 16) ||| (b2 <<< 8) ||| b3

/-- Big-endian unsigned 32-bit value of four bytes, as the spec describes it. -/
def beU32 (b0 b1 b2 b3 : Nat) : Nat :=
  ((b0 * 256 + b1) * 256 + b2) * 256 + b3

/-- The spec's ValidationReport: whether the size matches, the decoded height (absent
when fewer than 4 bytes were decoded), and whether the height matches. -/
structure ValidationReport where
  sizeOk : Bool
  height : Option Nat
  heightOk : Bool
deriving DecidableEq, Repr

/-- Embedding of the validation logic in `main` (lines 107-128): the size check
compares the decoded length against `expected_size`; the height is computed from the
first four bytes only when at least four bytes are present. -/
def validate (d : List Nat) : ValidationReport :=
  let sizeOk := d.length == expected_size
  match d with
  | b0 :: b1 :: b2 :: b3 :: _ =>
    { sizeOk := sizeOk
      height := some (beHeight b0 b1 b2 b3)
      heightOk := beHeight b0 b1 b2 b3 == expected_height }
  | _ => { sizeOk := sizeOk, height := none, heightOk := false }

/-- Messages printed by `main` during the validation phase (lines 110-128), in
order.  Each constructor records the numbers interpolated into the message. -/
inductive Msg where
  /-- "Extracted \x7bn\x7d bytes of checkpoint data" -/
  | extracted (n : Nat)
  /-- "Expected size: \x7bn\x7d bytes" -/
  | expectedSizeIs (n : Nat)
  /-- "Warning: Size mismatch! Expected \x7be\x7d bytes, got \x7bg\x7d" -/
  | sizeWarn (e g : Nat)
  /-- "This may indicate an issue with the checkpoint extraction." -/
  | sizeNote
  /-- "Size matches expected format" -/
  | sizeOkMsg
  /-- "Checkpoint height: \x7bh\x7d (expected: \x7be\x7d)" -/
  | heightIs (h e : Nat)
  /-- "Warning: Height mismatch! Expected \x7be\x7d, got \x7bg\x7d" -/
  | heightWarn (e g : Nat)
  /-- "Height verification passed" -/
  | heightOkMsg
deriving DecidableEq, Repr

/-- The sequence of messages `main` emits for decoded bytes `d` during validation
(lines 110-128), before the artifact is written. -/
def validation_messages (d : List Nat) : List Msg :=
  [Msg.extracted d.length, Msg.expectedSizeIs expected_size]
  ++ (if d.length ≠ expected_size then [Msg.sizeWarn expected_size d.length, Msg.sizeNote]
      else [Msg.sizeOkMsg])
  ++ (match d with
      | b0 :: b1 :: b2 :: b3 :: _ =>
        Msg.heightIs (beHeight b0 b1 b2 b3) expected_height ::
          (if beHeight b0 b1 b2 b3 ≠ expected_height then
            [Msg.heightWarn expected_height (beHeight b0 b1 b2 b3)]
          else [Msg.heightOkMsg])
      | _ => [])

/-- Whether a message states the (expected and actual) height. -/
def statesHeight (msgs : List Msg) : Bool :=
  msgs.any fun m => match m with
    | Msg.heightIs _ _ => true
    | _ => false

/-- The pipeline of `main` after the file read (lines 100-135): extract the array
content, decode it, validate, and (when extraction succeeded) write exactly the
decoded bytes to the output artifact.  The first component of the result is the byte
sequence written to disk. -/
def run_pipeline (content : List Char) : Except ExtractError (List Nat × ValidationReport) :=
  match extract_checkpoint_array content with
  | .error e => .error e
  | .ok array_content =>
    let checkpoint_data := extract_hex_strings array_content
    .ok (checkpoint_data, validate checkpoint_data)

/-! ### Hex-escape encoding (spec section 8, round-trip property)

Modelled from the spec: "encoding a known byte sequence into hex-escape literal
form" — a named array declaration whose braces enclose one `\xNN` token per byte, in
order.  The repository has no encoder; this is the spec-side inverse used by the
round-trip claim. -/

def hexDigitChar (n : Nat) : Char := "0123456789abcdef".toList.getD n '0'

def escByte (b : Nat) : List Char :=
  ['\\', 'x', hexDigitChar (b / 16), hexDigitChar (b % 16)]

def encodeBytes (bs : List Nat) : List Char :=
  (bs.map escByte).flatten

def encodeDecl (bs : List Nat) : List Char :=
  "HSK_CHECKPOINT_MAIN[] = ".toList ++ '\x7b' :: (encodeBytes bs ++ '\x7d' :: [';'])

/-! ### `clean_file` (clean_logs.py, lines 86-99)

The two helper predicates `is_log_statement` and `contains_sensitive_data` are taken
as parameters: the frame claim proved about `clean_file` holds for every choice of
these predicates, hence in particular for the source's regex-based ones.  The
substring guards `'Log.d' in line`, `'android.util.Log.d' in line` and
`'Log.' in line` are embedded concretely. -/

def logD : List Char := "Log.d".toList

def androidLogD : List Char := "android.util.Log.d".toList

def logDot : List Char := "Log.".toList

/-- Python's `needle in hay` substring test. -/
def containsSub (needle hay : List Char) : Bool :=
  (strFind needle hay).isSome

/-- Embedding of the per-line filtering loop of `clean_file` (lines 86-99): a line is
dropped when it contains `Log.d` (or `android.util.Log.d`) and `is_log_statement`
accepts it, or when it contains `Log.` and `contains_sensitive_data` accepts it;
every other line is kept unchanged, in order. -/
def clean_file_lines (isLog sens : List Char → Bool) : List (List Char) → List (List Char)
  | [] => []
  | line :: rest =>
    if (containsSub logD line || containsSub androidLogD line) && isLog line then
      clean_file_lines isLog sens rest
    else if containsSub logDot line && sens line then
      clean_file_lines isLog sens rest
    else
      line :: clean_file_lines isLog sens rest

/-! ### Correctness of the string search helpers -/

theorem occursAt_zero (needle : List Char) (hay : List Char) :
    occursAt needle hay 0 ↔ listPrefixOf needle hay = true := by
  simp [occursAt]

theorem occursAt_succ (needle : List Char) (c : Char) (rest : List Char) (j : Nat) :
    occursAt needle (c :: rest) (j + 1) ↔ occursAt needle rest j := by
  simp [occursAt, List.drop_succ_cons]

theorem strFind_eq_some_iff (needle : List Char) :
    ∀ (hay : List Char) (i : Nat),
      strFind needle hay = some i ↔
        (occursAt needle hay i ∧ ∀ j, j < i → ¬ occursAt needle hay j) := by
  intro hay
  induction hay with
  | nil =>
    intro i
    by_cases h : listPrefixOf needle [] = true
    · simp only [strFind, h, if_true]
      constructor
      · rintro h0
        cases h0
        exact ⟨by simpa [occursAt, List.drop_nil] using h, by omega⟩
      · rintro ⟨_, hmin⟩
        rcases i with _ | i
        · rfl
        · exact absurd (by simpa [occursAt, List.drop_nil] using h) (hmin 0 (by omega))
    · simp only [strFind, h, if_false]
      constructor
      · intro hfalse; cases hfalse
      · rintro ⟨hocc, _⟩
        exact absurd (by simpa [occursAt, List.drop_nil] using hocc) h
  | cons c rest ih =>
    intro i
    by_cases h : listPrefixOf needle (c :: rest) = true
    · simp only [strFind, h, if_true]
      constructor
      · rintro h0
        cases h0
        exact ⟨(occursAt_zero needle _).mpr h, by omega⟩
      · rintro ⟨_, hmin⟩
        rcases i with _ | i
        · rfl
        · exact absurd ((occursAt_zero needle _).mpr h) (hmin 0 (by omega))
    · simp only [strFind, h, if_false]
      constructor
      · intro hmap
        rcases hmap' : strFind needle rest with _ | i'
        · rw [hmap'] at hmap; exact absurd hmap (by simp)
        · rw [hmap'] at hmap
          have hi : i' + 1 = i := by simpa using hmap
          subst hi
          rcases (ih i').mp hmap' with ⟨hocc, hmin⟩
          refine ⟨(occursAt_succ needle c rest i').mpr hocc, ?_⟩
          intro j hj
          rcases j with _ | j
          · exact fun hc => h ((occursAt_zero needle _).mp hc)
          · intro hc
            exact hmin j (by omega) ((occursAt_succ needle c rest j).mp hc)
      · rintro ⟨hocc, hmin⟩
        rcases i with _ | i
        · exact absurd ((occursAt_zero needle _).mp hocc) h
        · have hocc' := (occursAt_succ needle c rest i).mp hocc
          have hmin' : ∀ j, j < i → ¬ occursAt needle rest j := by
            intro j hj hc
            exact hmin (j + 1) (by omega) ((occursAt_succ needle c rest j).mpr hc)
          rw [(ih i).mpr ⟨hocc', hmin'⟩]
          rfl

theorem strFind_eq_none_iff (needle : List Char) :
    ∀ (hay : List Char),
      strFind needle hay = none ↔ ∀ i, ¬ occursAt needle hay i := by
  intro hay
  induction hay with
  | nil =>
    by_cases h : listPrefixOf needle [] = true
    · simp only [strFind]
      rw [if_pos h]
      constructor
      · intro hfalse; cases hfalse
      · intro hall
        exact absurd (by simpa [occursAt, List.drop_nil] using h) (hall 0)
    · simp only [strFind]
      rw [if_neg h]
      simp only [true_iff]
      intro i hc
      exact h (by simpa [occursAt, List.drop_nil] using hc)
  | cons c rest ih =>
    by_cases h : listPrefixOf needle (c :: rest) = true
    · simp only [strFind, h, if_true]
      constructor
      · intro hfalse; cases hfalse
      · intro hall
        exact absurd ((occursAt_zero needle _).mpr h) (hall 0)
    · simp only [strFind, h, if_false]
      constructor
      · intro hmap
        have hnone : strFind needle rest = none := by
          rcases hmap' : strFind needle rest with _ | i'
          · rfl
          · rw [hmap'] at hmap; simp at hmap
        intro i
        rcases i with _ | i
        · exact fun hc => h ((occursAt_zero needle _).mp hc)
        · intro hc
          exact (ih.mp hnone) i ((occursAt_succ needle c rest i).mp hc)
      · intro hall
        have : strFind needle rest = none := by
          apply ih.mpr
          intro i hc
          exact hall (i + 1) ((occursAt_succ needle c rest i).mpr hc)
        rw [this]; rfl

theorem strFind_eq_zero_of (needle hay : List Char)
    (h : listPrefixOf needle hay = true) : strFind needle hay = some 0 := by
  cases hay with
  | nil => simp [strFind, h]
  | cons c rest => simp [strFind, h]

theorem occursAt_singleton (ch : Char) (hay : List Char) (i : Nat) :
    occursAt [ch] hay i ↔ hay[i]? = some ch := by
  have hdrop : hay[i]? = (hay.drop i)[0]? := by
    simp [List.getElem?_drop]
  rw [hdrop]
  unfold occursAt
  cases hd : hay.drop i with
  | nil => simp [listPrefixOf]
  | cons c' t =>
    simp only [listPrefixOf, List.getElem?_cons_zero]
    constructor
    · intro hp
      have hchc : ch = c' := by
        have := (Bool.and_eq_true _ _).mp hp
        exact eq_of_beq this.1
      simp [hchc]
    · intro hsome
      have hcc : c' = ch := by injection hsome
      simp [hcc, listPrefixOf]

theorem findCharFrom_eq_none_iff (ch : Char) (content : List Char) (start : Nat) :
    findCharFrom ch content start = none ↔
      ∀ j, start ≤ j → content[j]? ≠ some ch := by
  unfold findCharFrom
  constructor
  · intro h j hj hc
    have hnone : strFind [ch] (content.drop start) = none := by
      rcases hs : strFind [ch] (content.drop start) with _ | i
      · rfl
      · rw [hs] at h; exact absurd h (by simp)
    have hall := (strFind_eq_none_iff _ _).mp hnone
    apply hall (j - start)
    rw [occursAt_singleton, List.getElem?_drop]
    rw [show start + (j - start) = j from by omega]
    exact hc
  · intro hall
    have hnone : strFind [ch] (content.drop start) = none := by
      apply (strFind_eq_none_iff _ _).mpr
      intro i hocc
      have hget := (occursAt_singleton _ _ _).mp hocc
      rw [List.getElem?_drop] at hget
      exact hall (start + i) (by omega) hget
    rw [hnone]; rfl

theorem findCharFrom_eq_some_iff (ch : Char) (content : List Char) (start b : Nat) :
    findCharFrom ch content start = some b ↔
      (start ≤ b ∧ content[b]? = some ch ∧
        ∀ j, start ≤ j → j < b → content[j]? ≠ some ch) := by
  unfold findCharFrom
  constructor
  · intro h
    rcases hs : strFind [ch] (content.drop start) with _ | i
    · rw [hs] at h; exact absurd h (by simp)
    · rw [hs] at h
      have hb : i + start = b := by simpa using h
      rcases (strFind_eq_some_iff _ _ _).mp hs with ⟨hocc, hmin⟩
      have hget := (occursAt_singleton _ _ _).mp hocc
      rw [List.getElem?_drop] at hget
      refine ⟨by omega, ?_, ?_⟩
      · rw [show b = start + i from by omega]; exact hget
      · intro j hj1 hj2 hc
        apply hmin (j - start) (by omega)
        rw [occursAt_singleton, List.getElem?_drop]
        rw [show start + (j - start) = j from by omega]
        exact hc
  · rintro ⟨hsb, hget, hmin⟩
    have hsome : strFind [ch] (content.drop start) = some (b - start) := by
      apply (strFind_eq_some_iff _ _ _).mpr
      constructor
      · rw [occursAt_singleton, List.getElem?_drop]
        rw [show start + (b - start) = b from by omega]
        exact hget
      · intro j hj hc
        rw [occursAt_singleton, List.getElem?_drop] at hc
        exact hmin (start + j) (by omega) (by omega) hc
    rw [hsome]
    simp
    omega

/-! ### Characterization of the brace-counting loop

`FirstZero l count i e` says: starting the loop on the characters `l` at absolute
position `i` with counter value `count`, position `e` is the first position at which
the running counter (incremented on `{`, decremented on `}`) reaches 0.  `NoZero`
says the counter never reaches 0 within the input. -/

def FirstZero (l : List Char) (count : Int) (i e : Nat) : Prop :=
  i ≤ e ∧ e < i + l.length ∧ count + braceDelta (l.take (e - i + 1)) = 0 ∧
  ∀ j, i ≤ j → j < e → count + braceDelta (l.take (j - i + 1)) ≠ 0

def NoZero (l : List Char) (count : Int) (i : Nat) : Prop :=
  ∀ j, i ≤ j → j < i + l.length → count + braceDelta (l.take (j - i + 1)) ≠ 0

theorem take_one_cons (c : Char) (rest : List Char) : (c :: rest).take 1 = [c] := rfl

theorem firstZero_cons (c : Char) (rest : List Char) (count : Int) (i e : Nat) :
    FirstZero (c :: rest) count i e ↔
      ((e = i ∧ count + braceDelta [c] = 0) ∨
       (count + braceDelta [c] ≠ 0 ∧ FirstZero rest (count + braceDelta [c]) (i + 1) e)) := by
  unfold FirstZero
  constructor
  · rintro ⟨h1, h2, h3, h4⟩
    rcases Nat.eq_or_lt_of_le h1 with heq | hlt
    · left
      rw [← heq] at h3
      rw [show i - i + 1 = 1 from by omega, take_one_cons] at h3
      exact ⟨heq.symm, h3⟩
    · right
      have hstep : count + braceDelta [c] ≠ 0 := by
        have hmin := h4 i (le_refl i) hlt
        rw [show i - i + 1 = 1 from by omega, take_one_cons] at hmin
        exact hmin
      refine ⟨hstep, by omega, ?_, ?_, ?_⟩
      · simp only [List.length_cons] at h2; omega
      · rw [show e - i + 1 = (e - (i + 1) + 1) + 1 from by omega, List.take_succ_cons] at h3
        simp only [braceDelta] at h3 ⊢
        omega
      · intro j hj1 hj2
        have hmin := h4 j (by omega) hj2
        rw [show j - i + 1 = (j - (i + 1) + 1) + 1 from by omega, List.take_succ_cons] at hmin
        simp only [braceDelta] at hmin ⊢
        omega
  · rintro (⟨heq, hz⟩ | ⟨hstep, h1, h2, h3, h4⟩)
    · subst heq
      refine ⟨le_refl _, by simp only [List.length_cons]; omega, ?_, by intro j hj1 hj2; omega⟩
      rw [show e - e + 1 = 1 from by omega, take_one_cons]
      exact hz
    · refine ⟨by omega, by simp only [List.length_cons]; omega, ?_, ?_⟩
      · rw [show e - i + 1 = (e - (i + 1) + 1) + 1 from by omega, List.take_succ_cons]
        simp only [braceDelta] at h3 ⊢
        omega
      · intro j hj1 hj2
        rcases Nat.eq_or_lt_of_le hj1 with heq2 | hlt2
        · rw [← heq2]
          rw [show i - i + 1 = 1 from by omega, take_one_cons]
          exact hstep
        · have hmin := h4 j (by omega) hj2
          rw [show j - i + 1 = (j - (i + 1) + 1) + 1 from by omega, List.take_succ_cons]
          simp only [braceDelta] at hmin ⊢
          omega

theorem noZero_cons (c : Char) (rest : List Char) (count : Int) (i : Nat) :
    NoZero (c :: rest) count i ↔
      (count + braceDelta [c] ≠ 0 ∧ NoZero rest (count + braceDelta [c]) (i + 1)) := by
  unfold NoZero
  constructor
  · intro h
    constructor
    · have hmin := h i (le_refl i) (by simp only [List.length_cons]; omega)
      rw [show i - i + 1 = 1 from by omega, take_one_cons] at hmin
      exact hmin
    · intro j hj1 hj2
      have hmin := h j (by omega) (by simp only [List.length_cons] at *; omega)
      rw [show j - i + 1 = (j - (i + 1) + 1) + 1 from by omega, List.take_succ_cons] at hmin
      simp only [braceDelta] at hmin ⊢
      omega
  · rintro ⟨hstep, h⟩ j hj1 hj2
    rcases Nat.eq_or_lt_of_le hj1 with heq | hlt
    · rw [← heq]
      rw [show i - i + 1 = 1 from by omega, take_one_cons]
      exact hstep
    · have hmin := h j (by omega) (by simp only [List.length_cons] at hj2; omega)
      rw [show j - i + 1 = (j - (i + 1) + 1) + 1 from by omega, List.take_succ_cons]
      simp only [braceDelta] at hmin ⊢
      omega

theorem braceScan_some_iff :
    ∀ (l : List Char) (count : Int) (i e : Nat), 0 < count →
      (braceScan l count i = some e ↔ FirstZero l count i e) := by
  intro l
  induction l with
  | nil =>
    intro count i e hc
    unfold FirstZero
    simp only [braceScan, List.length_nil]
    constructor
    · intro h; cases h
    · rintro ⟨h1, h2, _, _⟩; omega
  | cons c rest ih =>
    intro count i e hc
    rw [firstZero_cons]
    by_cases hbo : c == '\x7b'
    · have hstep : braceDelta [c] = 1 := by simp [braceDelta, hbo]
      rw [show braceScan (c :: rest) count i = braceScan rest (count + 1) (i + 1) from by
        simp [braceScan, hbo]]
      rw [ih (count + 1) (i + 1) e (by omega)]
      rw [hstep]
      constructor
      · intro h
        right
        exact ⟨by omega, h⟩
      · rintro (⟨_, hz⟩ | ⟨_, h⟩)
        · omega
        · exact h
    · by_cases hbc : c == '\x7d'
      · have hstep : braceDelta [c] = -1 := by simp [braceDelta, hbo, hbc]
        rw [hstep]
        by_cases hz : count - 1 = 0
        · rw [show braceScan (c :: rest) count i = some i from by
            simp [braceScan, hbo, hbc, hz]]
          constructor
          · intro h
            left
            have : i = e := by injection h
            exact ⟨this.symm, by omega⟩
          · rintro (⟨heq, _⟩ | ⟨hne, _⟩)
            · rw [heq]
            · omega
        · rw [show braceScan (c :: rest) count i = braceScan rest (count - 1) (i + 1) from by
            simp [braceScan, hbo, hbc, hz]]
          rw [ih (count - 1) (i + 1) e (by omega)]
          rw [show count + -1 = count - 1 from by omega]
          constructor
          · intro h
            right
            exact ⟨by omega, h⟩
          · rintro (⟨_, hzz⟩ | ⟨_, h⟩)
            · omega
            · exact h
      · have hstep : braceDelta [c] = 0 := by simp [braceDelta, hbo, hbc]
        rw [hstep]
        rw [show braceScan (c :: rest) count i = braceScan rest count (i + 1) from by
          simp [braceScan, hbo, hbc]]
        rw [ih count (i + 1) e (by omega)]
        rw [show count + 0 = count from by omega]
        constructor
        · intro h
          right
          exact ⟨by omega, h⟩
        · rintro (⟨_, hzz⟩ | ⟨_, h⟩)
          · omega
          · exact h

theorem braceScan_none_iff :
    ∀ (l : List Char) (count : Int) (i : Nat), 0 < count →
      (braceScan l count i = none ↔ NoZero l count i) := by
  intro l
  induction l with
  | nil =>
    intro count i hc
    unfold NoZero
    simp only [braceScan, List.length_nil]
    constructor
    · intro _ j hj1 hj2; omega
    · intro _; trivial
  | cons c rest ih =>
    intro count i hc
    rw [noZero_cons]
    by_cases hbo : c == '\x7b'
    · have hstep : braceDelta [c] = 1 := by simp [braceDelta, hbo]
      rw [show braceScan (c :: rest) count i = braceScan rest (count + 1) (i + 1) from by
        simp [braceScan, hbo]]
      rw [ih (count + 1) (i + 1) (by omega), hstep]
      constructor
      · intro h; exact ⟨by omega, h⟩
      · rintro ⟨_, h⟩; exact h
    · by_cases hbc : c == '\x7d'
      · have hstep : braceDelta [c] = -1 := by simp [braceDelta, hbo, hbc]
        rw [hstep]
        by_cases hz : count - 1 = 0
        · rw [show braceScan (c :: rest) count i = some i from by
            simp [braceScan, hbo, hbc, hz]]
          constructor
          · intro h; cases h
          · rintro ⟨hne, _⟩; omega
        · rw [show braceScan (c :: rest) count i = braceScan rest (count - 1) (i + 1) from by
            simp [braceScan, hbo, hbc, hz]]
          rw [ih (count - 1) (i + 1) (by omega)]
          rw [show count + -1 = count - 1 from by omega]
          constructor
          · intro h; exact ⟨by omega, h⟩
          · rintro ⟨_, h⟩; exact h
      · have hstep : braceDelta [c] = 0 := by simp [braceDelta, hbo, hbc]
        rw [hstep]
        rw [show braceScan (c :: rest) count i = braceScan rest count (i + 1) from by
          simp [braceScan, hbo, hbc]]
        rw [ih count (i + 1) (by omega)]
        rw [show count + 0 = count from by omega]
        constructor
        · intro h; exact ⟨by omega, h⟩
        · rintro ⟨_, h⟩; exact h

/-- When the whole scanned suffix starts with `{` and has net brace depth 0, the
loop is guaranteed to break (the counter must return to 0 somewhere). -/
theorem braceScan_isSome_of_delta_zero (l' : List Char) (i : Nat)
    (h : braceDelta ('\x7b' :: l') = 0) :
    ∃ e, braceScan ('\x7b' :: l') 0 i = some e := by
  have hpeel : braceScan ('\x7b' :: l') 0 i = braceScan l' 1 (i + 1) := by
    simp [braceScan]
  have hdelta : braceDelta l' = -1 := by
    simp only [braceDelta] at h
    simp at h
    omega
  rcases hs : braceScan l' 1 (i + 1) with _ | e
  · exfalso
    have hall := (braceScan_none_iff l' 1 (i + 1) (by omega)).mp hs
    cases hl : l' with
    | nil => rw [hl] at hdelta; simp [braceDelta] at hdelta
    | cons d t =>
      have hlen : 0 < l'.length := by rw [hl]; simp
      have hlast := hall (i + l'.length) (by omega) (by omega)
      rw [show i + l'.length - (i + 1) + 1 = l'.length from by omega, List.take_length] at hlast
      omega
  · exact ⟨e, by rw [hpeel, hs]⟩

/-! ### Properties of the hex-escape decoder -/

theorem int16_pair (h1 h2 : Char) :
    int16 [h1, h2] = 16 * hexDigVal h1 + hexDigVal h2 := by
  simp [int16, List.foldl]

theorem scanHex_map_eq_specScan :
    ∀ (fuel : Nat) (l : List Char), (scanHex fuel l).map int16 = specScan fuel l := by
  intro fuel l
  induction fuel, l using scanHex.induct with
  | case1 t => simp [scanHex, specScan]
  | case2 c rest => simp [scanHex, specScan]
  | case3 fuel c hbs x h1 h2 rest2 hcond ih =>
    rw [show scanHex (fuel + 1) (c :: x :: h1 :: h2 :: rest2)
          = [h1, h2] :: scanHex fuel rest2 from by simp [scanHex, hbs, hcond],
        show specScan (fuel + 1) (c :: x :: h1 :: h2 :: rest2)
          = (16 * hexDigVal h1 + hexDigVal h2) :: specScan fuel rest2 from by
          simp [specScan, hbs, hcond]]
    simp only [List.map_cons, int16_pair]
    rw [ih]
  | case4 fuel c hbs x h1 h2 rest2 hcond ih =>
    rw [show scanHex (fuel + 1) (c :: x :: h1 :: h2 :: rest2)
          = scanHex fuel (x :: h1 :: h2 :: rest2) from by simp [scanHex, hbs, hcond],
        show specScan (fuel + 1) (c :: x :: h1 :: h2 :: rest2)
          = specScan fuel (x :: h1 :: h2 :: rest2) from by simp [specScan, hbs, hcond]]
    exact ih
  | case5 fuel c hbs short hshort ih =>
    rcases short with _ | ⟨x, _ | ⟨h1, _ | ⟨h2, rest2⟩⟩⟩
    · simp [scanHex, specScan, hbs]
    · rw [show scanHex (fuel + 1) (c :: [x]) = scanHex fuel [x] from by simp [scanHex, hbs],
          show specScan (fuel + 1) (c :: [x]) = specScan fuel [x] from by simp [specScan, hbs]]
      exact ih
    · rw [show scanHex (fuel + 1) (c :: [x, h1]) = scanHex fuel [x, h1] from by
            simp [scanHex, hbs],
          show specScan (fuel + 1) (c :: [x, h1]) = specScan fuel [x, h1] from by
            simp [specScan, hbs]]
      exact ih
    · exact absurd rfl (hshort x h1 h2 rest2)
  | case6 fuel c rest hbs ih =>
    have hbs' : (c == '\\') = false := by simpa using hbs
    rw [show scanHex (fuel + 1) (c :: rest) = scanHex fuel rest from by
          rcases rest with _ | ⟨x, _ | ⟨h1, _ | ⟨h2, rest2⟩⟩⟩ <;> simp [scanHex, hbs'],
        show specScan (fuel + 1) (c :: rest) = specScan fuel rest from by
          rcases rest with _ | ⟨x, _ | ⟨h1, _ | ⟨h2, rest2⟩⟩⟩ <;> simp [specScan, hbs']]
    exact ih

theorem findall_map_eq_spec_decode :
    ∀ l : List Char, (re_findall_hex l).map int16 = spec_decode l := by
  intro l
  exact scanHex_map_eq_specScan l.length l

theorem hasEscapeToken_tail {c : Char} {rest : List Char}
    (h : hasEscapeToken (c :: rest) = false) : hasEscapeToken rest = false := by
  rw [hasEscapeToken] at h
  exact (Bool.or_eq_false_iff.mp h).2

theorem scanHex_eq_nil_of_no_token :
    ∀ (fuel : Nat) (l : List Char), hasEscapeToken l = false → scanHex fuel l = [] := by
  intro fuel l
  induction fuel, l using scanHex.induct with
  | case1 t => intro _; simp [scanHex]
  | case2 c rest => intro _; simp [scanHex]
  | case3 fuel c hbs x h1 h2 rest2 hcond ih =>
    intro hfalse
    rw [hasEscapeToken] at hfalse
    simp [startsWithEscape, hbs, hcond] at hfalse
  | case4 fuel c hbs x h1 h2 rest2 hcond ih =>
    intro hfalse
    rw [show scanHex (fuel + 1) (c :: x :: h1 :: h2 :: rest2)
          = scanHex fuel (x :: h1 :: h2 :: rest2) from by simp [scanHex, hbs, hcond]]
    exact ih (hasEscapeToken_tail hfalse)
  | case5 fuel c hbs short hshort ih =>
    intro hfalse
    rcases short with _ | ⟨x, _ | ⟨h1, _ | ⟨h2, rest2⟩⟩⟩
    · simp [scanHex, hbs]
    · rw [show scanHex (fuel + 1) (c :: [x]) = scanHex fuel [x] from by simp [scanHex, hbs]]
      exact ih (hasEscapeToken_tail hfalse)
    · rw [show scanHex (fuel + 1) (c :: [x, h1]) = scanHex fuel [x, h1] from by
            simp [scanHex, hbs]]
      exact ih (hasEscapeToken_tail hfalse)
    · exact absurd rfl (hshort x h1 h2 rest2)
  | case6 fuel c rest hbs ih =>
    intro hfalse
    have hbs' : (c == '\\') = false := by simpa using hbs
    rw [show scanHex (fuel + 1) (c :: rest) = scanHex fuel rest from by
          rcases rest with _ | ⟨x, _ | ⟨h1, _ | ⟨h2, rest2⟩⟩⟩ <;> simp [scanHex, hbs']]
    exact ih (hasEscapeToken_tail hfalse)

theorem re_findall_hex_eq_nil_of_no_token :
    ∀ l : List Char, hasEscapeToken l = false → re_findall_hex l = [] := by
  intro l h
  exact scanHex_eq_nil_of_no_token l.length l h

/-- C1: `decode` (the source's `extract_hex_strings`) scans its input left to right
for hex-escape tokens (backslash, `x`, two hex digits), returning exactly one byte
per token — the token's two hex digits read base-16 — in left-to-right order of
appearance (this is `spec_decode`, the spec's description of the scan); and on text
containing no escape token it returns the empty byte sequence rather than failing
(the function is total by construction). -/
theorem decode_scans_tokens_in_order :
    ∀ l : List Char,
      extract_hex_strings l = spec_decode l ∧
      (hasEscapeToken l = false → extract_hex_strings l = []) := by
  intro l
  constructor
  · exact findall_map_eq_spec_decode l
  · intro h
    unfold extract_hex_strings
    rw [re_findall_hex_eq_nil_of_no_token l h]
    rfl

/-- Witness for C1 at a concrete token-free input. -/
theorem decode_scans_tokens_in_order_witness :
    extract_hex_strings ("static const uint8_t x;".toList)
        = spec_decode ("static const uint8_t x;".toList) ∧
    extract_hex_strings ("static const uint8_t x;".toList) = [] :=
  ⟨(decode_scans_tokens_in_order _).1,
   (decode_scans_tokens_in_order _).2 (by decide)⟩

/-- C4: validation computes `expectedSize = 4 + 32 + 150*236 = 35436` and reports
`sizeOk` true exactly when the decoded byte sequence has that length; in particular a
35435-byte sequence reports `sizeOk = false`. -/
theorem validate_size_check :
    (∀ d : List Nat, (validate d).sizeOk = (d.length == expected_size)) ∧
    expected_size = 35436 ∧
    (validate (List.replicate 35435 0)).sizeOk = false := by
  have hgen : ∀ d : List Nat, (validate d).sizeOk = (d.length == expected_size) := by
    intro d
    rcases d with _ | ⟨b0, _ | ⟨b1, _ | ⟨b2, _ | ⟨b3, rest⟩⟩⟩⟩ <;> simp [validate]
  refine ⟨hgen, rfl, ?_⟩
  rw [hgen, List.length_replicate]
  decide

/-! ### Big-endian height arithmetic -/

theorem beHeight_eq_beU32 (b0 b1 b2 b3 : Nat)
    (h0 : b0 < 256) (h1 : b1 < 256) (h2 : b2 < 256) (h3 : b3 < 256) :
    beHeight b0 b1 b2 b3 = beU32 b0 b1 b2 b3 := by
  unfold beHeight beU32
  rw [Nat.shiftLeft_eq, Nat.shiftLeft_eq, Nat.shiftLeft_eq]
  have e1 : b0 * 2 ^ 24 ||| b1 * 2 ^ 16 = b0 * 2 ^ 24 + b1 * 2 ^ 16 := by
    have hlt : b1 * 2 ^ 16 < 2 ^ 24 := by
      calc b1 * 2 ^ 16 < 256 * 2 ^ 16 := (Nat.mul_lt_mul_right (by norm_num)).mpr h1
        _ = 2 ^ 24 := by norm_num
    calc b0 * 2 ^ 24 ||| b1 * 2 ^ 16
        = 2 ^ 24 * b0 ||| b1 * 2 ^ 16 := by rw [Nat.mul_comm]
      _ = 2 ^ 24 * b0 + b1 * 2 ^ 16 := (Nat.mul_add_lt_is_or hlt b0).symm
      _ = b0 * 2 ^ 24 + b1 * 2 ^ 16 := by ring
  have e2 : b0 * 2 ^ 24 + b1 * 2 ^ 16 ||| b2 * 2 ^ 8
      = b0 * 2 ^ 24 + b1 * 2 ^ 16 + b2 * 2 ^ 8 := by
    have hlt : b2 * 2 ^ 8 < 2 ^ 16 := by
      calc b2 * 2 ^ 8 < 256 * 2 ^ 8 := (Nat.mul_lt_mul_right (by norm_num)).mpr h2
        _ = 2 ^ 16 := by norm_num
    have hform : b0 * 2 ^ 24 + b1 * 2 ^ 16 = 2 ^ 16 * (b0 * 2 ^ 8 + b1) := by ring
    calc b0 * 2 ^ 24 + b1 * 2 ^ 16 ||| b2 * 2 ^ 8
        = 2 ^ 16 * (b0 * 2 ^ 8 + b1) ||| b2 * 2 ^ 8 := by rw [hform]
      _ = 2 ^ 16 * (b0 * 2 ^ 8 + b1) + b2 * 2 ^ 8 := (Nat.mul_add_lt_is_or hlt _).symm
      _ = b0 * 2 ^ 24 + b1 * 2 ^ 16 + b2 * 2 ^ 8 := by ring
  have e3 : b0 * 2 ^ 24 + b1 * 2 ^ 16 + b2 * 2 ^ 8 ||| b3
      = b0 * 2 ^ 24 + b1 * 2 ^ 16 + b2 * 2 ^ 8 + b3 := by
    have hlt : b3 < 2 ^ 8 := by norm_num at h3 ⊢; omega
    have hform : b0 * 2 ^ 24 + b1 * 2 ^ 16 + b2 * 2 ^ 8
        = 2 ^ 8 * (b0 * 2 ^ 16 + b1 * 2 ^ 8 + b2) := by ring
    calc b0 * 2 ^ 24 + b1 * 2 ^ 16 + b2 * 2 ^ 8 ||| b3
        = 2 ^ 8 * (b0 * 2 ^ 16 + b1 * 2 ^ 8 + b2) ||| b3 := by rw [hform]
      _ = 2 ^ 8 * (b0 * 2 ^ 16 + b1 * 2 ^ 8 + b2) + b3 := (Nat.mul_add_lt_is_or hlt _).symm
      _ = b0 * 2 ^ 24 + b1 * 2 ^ 16 + b2 * 2 ^ 8 + b3 := by ring
  rw [e1, e2, e3]
  ring

theorem validate_sizeOk_eq (d : List Nat) :
    (validate d).sizeOk = (d.length == expected_size) := by
  rcases d with _ | ⟨b0, _ | ⟨b1, _ | ⟨b2, _ | ⟨b3, rest⟩⟩⟩⟩ <;> simp [validate]

theorem validate_cons4_height (b0 b1 b2 b3 : Nat) (rest : List Nat) :
    (validate (b0 :: b1 :: b2 :: b3 :: rest)).height = some (beHeight b0 b1 b2 b3) := by
  simp [validate]

theorem validate_cons4_heightOk (b0 b1 b2 b3 : Nat) (rest : List Nat) :
    (validate (b0 :: b1 :: b2 :: b3 :: rest)).heightOk
      = (beHeight b0 b1 b2 b3 == expected_height) := by
  simp [validate]

/-- Example of C5/spec section 8: 35436 bytes whose first four are 00 02 13 40. -/
def c5ex1 : List Nat := 0 :: 2 :: 19 :: 64 :: List.replicate 35432 0

/-- Example of C5/spec section 8: 35436 bytes whose first four are 00 00 00 01. -/
def c5ex2 : List Nat := 0 :: 0 :: 0 :: 1 :: List.replicate 35432 0

/-- C5: for at least 4 decoded bytes, `validate` computes the height as the
big-endian unsigned 32-bit integer of the first four bytes and reports `heightOk`
exactly when it equals 136000; `00 02 13 40` gives `heightOk = true`, `00 00 00 01`
gives height 1 and `heightOk = false`; for fewer than 4 bytes the height is omitted
and `heightOk = false`. -/
theorem validate_height_big_endian :
    (∀ (b0 b1 b2 b3 : Nat) (rest : List Nat),
      b0 < 256 → b1 < 256 → b2 < 256 → b3 < 256 →
        (validate (b0 :: b1 :: b2 :: b3 :: rest)).height = some (beU32 b0 b1 b2 b3) ∧
        (validate (b0 :: b1 :: b2 :: b3 :: rest)).heightOk =
          (beU32 b0 b1 b2 b3 == expected_height)) ∧
    (∀ d : List Nat, d.length < 4 →
      (validate d).height = none ∧ (validate d).heightOk = false) ∧
    ((validate c5ex1).sizeOk = true ∧ (validate c5ex1).height = some 136000 ∧
      (validate c5ex1).heightOk = true) ∧
    ((validate c5ex2).sizeOk = true ∧ (validate c5ex2).height = some 1 ∧
      (validate c5ex2).heightOk = false) := by
  refine ⟨?_, ?_, ⟨?_, ?_, ?_⟩, ⟨?_, ?_, ?_⟩⟩
  · intro b0 b1 b2 b3 rest h0 h1 h2 h3
    constructor
    · simp [validate, beHeight_eq_beU32 b0 b1 b2 b3 h0 h1 h2 h3]
    · simp [validate, beHeight_eq_beU32 b0 b1 b2 b3 h0 h1 h2 h3]
  · intro d hd
    rcases d with _ | ⟨a, _ | ⟨b, _ | ⟨c, _ | ⟨e, rest⟩⟩⟩⟩
    · exact ⟨by simp [validate], by simp [validate]⟩
    · exact ⟨by simp [validate], by simp [validate]⟩
    · exact ⟨by simp [validate], by simp [validate]⟩
    · exact ⟨by simp [validate], by simp [validate]⟩
    · simp only [List.length_cons] at hd; omega
  · rw [validate_sizeOk_eq]
    rw [show c5ex1.length = 35436 from by
      show (0 :: 2 :: 19 :: 64 :: List.replicate 35432 0).length = 35436
      rw [List.length_cons, List.length_cons, List.length_cons, List.length_cons,
        List.length_replicate]]
    decide
  · exact (validate_cons4_height 0 2 19 64 (List.replicate 35432 0)).trans (by decide)
  · exact (validate_cons4_heightOk 0 2 19 64 (List.replicate 35432 0)).trans (by decide)
  · rw [validate_sizeOk_eq]
    rw [show c5ex2.length = 35436 from by
      show (0 :: 0 :: 0 :: 1 :: List.replicate 35432 0).length = 35436
      rw [List.length_cons, List.length_cons, List.length_cons, List.length_cons,
        List.length_replicate]]
    decide
  · exact (validate_cons4_height 0 0 0 1 (List.replicate 35432 0)).trans (by decide)
  · exact (validate_cons4_heightOk 0 0 0 1 (List.replicate 35432 0)).trans (by decide)

/-- Witness for C5 at concrete byte values. -/
theorem validate_height_big_endian_witness :
    ((validate [0, 2, 19, 64]).height = some (beU32 0 2 19 64) ∧
      (validate [0, 2, 19, 64]).heightOk = (beU32 0 2 19 64 == expected_height)) ∧
    (validate ([0, 1] : List Nat)).height = none ∧
    (validate ([0, 1] : List Nat)).heightOk = false :=
  ⟨validate_height_big_endian.1 0 2 19 64 []
      (by decide) (by decide) (by decide) (by decide),
   validate_height_big_endian.2.1 [0, 1] (by decide)⟩

/-- C6: validation never mutates the decoded bytes and never raises on a size or
height mismatch: whenever extraction succeeds, the pipeline succeeds and the bytes
written to the artifact are exactly the decoded bytes, whatever the validation
report says. -/
theorem pipeline_writes_bytes_unchanged :
    ∀ (content lit : List Char), extract_checkpoint_array content = .ok lit →
      run_pipeline content = .ok (extract_hex_strings lit, validate (extract_hex_strings lit)) := by
  intro content lit h
  unfold run_pipeline
  rw [h]

/-- Concrete blob for the C6 witness: decodes to 2 bytes, so `sizeOk` is false, yet
the pipeline still succeeds and writes the decoded bytes. -/
def c6blob : List Char := "HSK_CHECKPOINT_MAIN[] = \x7b\"\\x00\\x01\"\x7d;".toList

/-- The array literal inside `c6blob`. -/
def c6lit : List Char := "\"\\x00\\x01\"".toList

/-- Witness for C6: a size-mismatched artifact is still produced unchanged. -/
theorem pipeline_writes_bytes_unchanged_witness :
    run_pipeline c6blob = .ok (extract_hex_strings c6lit, validate (extract_hex_strings c6lit)) ∧
    (validate (extract_hex_strings c6lit)).sizeOk = false :=
  ⟨pipeline_writes_bytes_unchanged c6blob c6lit (by rfl), by rfl⟩

/-- C7 counterexample blob: extraction succeeds with an empty literal, so the run
reaches validation with 0 decoded bytes. -/
def c7blob : List Char := "HSK_CHECKPOINT_MAIN[] = \x7b\x7d;".toList

/-- C7 counterexample: a run that reaches validation with fewer than 4 decoded bytes
does not state the height at all (the claim asserts the height is stated on every
such run, including this one). -/
theorem height_not_stated_on_short_input_cex :
    run_pipeline c7blob = .ok ([], validate []) ∧
    statesHeight (validation_messages []) = false := by
  exact ⟨rfl, rfl⟩

/-- C7 (amended): on every run reaching validation the tool states the expected and
the actual size; it states the expected and actual height exactly when at least 4
bytes were decoded — with fewer than 4 bytes no height message is emitted. -/
theorem validation_messages_characterization :
    ∀ d : List Nat,
      Msg.extracted d.length ∈ validation_messages d ∧
      Msg.expectedSizeIs expected_size ∈ validation_messages d ∧
      (4 ≤ d.length → statesHeight (validation_messages d) = true) ∧
      (d.length < 4 → statesHeight (validation_messages d) = false) := by
  intro d
  rcases d with _ | ⟨a, _ | ⟨b, _ | ⟨c, _ | ⟨e, rest⟩⟩⟩⟩
  · refine ⟨by simp [validation_messages], by simp [validation_messages], ?_, ?_⟩
    · intro h; simp at h
    · intro _
      simp [validation_messages, statesHeight, List.any_append]
      split_ifs <;> simp [statesHeight]
  · refine ⟨by simp [validation_messages], by simp [validation_messages], ?_, ?_⟩
    · intro h; simp at h
    · intro _
      simp [validation_messages, statesHeight, List.any_append]
      split_ifs <;> simp [statesHeight]
  · refine ⟨by simp [validation_messages], by simp [validation_messages], ?_, ?_⟩
    · intro h; simp at h
    · intro _
      simp [validation_messages, statesHeight, List.any_append]
      split_ifs <;> simp [statesHeight]
  · refine ⟨by simp [validation_messages], by simp [validation_messages], ?_, ?_⟩
    · intro h; simp at h
    · intro _
      simp [validation_messages, statesHeight, List.any_append]
      split_ifs <;> simp [statesHeight]
  · refine ⟨by simp [validation_messages], by simp [validation_messages], ?_, ?_⟩
    · intro _
      simp [validation_messages, statesHeight, List.any_append]
    · intro h; simp [List.length_cons] at h; omega

/-- Witness for C7's amended theorem at concrete inputs. -/
theorem validation_messages_characterization_witness :
    Msg.extracted 4 ∈ validation_messages [0, 0, 0, 0] ∧
    statesHeight (validation_messages [0, 0, 0, 0]) = true ∧
    statesHeight (validation_messages [9]) = false :=
  ⟨(validation_messages_characterization [0, 0, 0, 0]).1,
   (validation_messages_characterization [0, 0, 0, 0]).2.2.1 (by decide),
   (validation_messages_characterization [9]).2.2.2 (by decide)⟩

/-! ### C2: what the locator actually keys on -/

/-- A blob in which the bare name occurs (followed later by a brace) before the
first occurrence of the name immediately followed by `[`. -/
def c2blob : List Char :=
  "HSK_CHECKPOINT_MAIN \x7bA\x7d HSK_CHECKPOINT_MAIN[2] = \x7bB\x7d;".toList

/-- C2 counterexample: the source's locator does not key on the first occurrence of
the bare name — on `c2blob` the algorithm described by the claim (first occurrence
of the name, then the first following brace) yields `A`, while the code yields `B`
(it keys on the first occurrence of the name immediately followed by `[`). -/
theorem locate_first_name_occurrence_cex :
    extract_checkpoint_array c2blob ≠ claim_locate c2blob ∧
    extract_checkpoint_array c2blob = .ok ['B'] ∧
    claim_locate c2blob = .ok ['A'] := by
  refine ⟨?_, rfl, rfl⟩
  have h1 : extract_checkpoint_array c2blob = .ok ['B'] := rfl
  have h2 : claim_locate c2blob = .ok ['A'] := rfl
  rw [h1, h2]
  intro h
  injection h with h
  injection h with h
  exact absurd h (by decide)

/-- If position `b` of the blob holds `{`, the suffix from `b` starts with that
brace. -/
theorem drop_eq_brace_cons (blob : List Char) (b : Nat) (hb : blob[b]? = some '\x7b') :
    b < blob.length ∧ blob.drop b = '\x7b' :: blob.drop (b + 1) := by
  have hblen : b < blob.length := by
    by_contra hge
    rw [List.getElem?_eq_none (by omega)] at hb
    cases hb
  refine ⟨hblen, ?_⟩
  rw [List.drop_eq_getElem_cons hblen]
  have hgb : blob[b] = '\x7b' := by
    rw [List.getElem?_eq_getElem hblen] at hb
    injection hb
  rw [hgb]

/-- Rewrites the running depth over a slice that starts at a `{`. -/
theorem drop_take_delta (blob : List Char) (b j : Nat)
    (hb : blob[b]? = some '\x7b') (hj : b ≤ j) :
    braceDelta ((blob.drop b).take (j + 1 - b)) =
      1 + braceDelta ((blob.drop (b + 1)).take (j - b)) := by
  rcases drop_eq_brace_cons blob b hb with ⟨_, hdropb⟩
  rw [hdropb, show j + 1 - b = (j - b) + 1 from by omega, List.take_succ_cons]
  simp [braceDelta]

/-- C2 (amended): whenever the locator succeeds, it returns the content strictly
between the matching braces, computed by taking the first occurrence of the name
immediately followed by `[` (not of the bare name — see the counterexample), the
first `{` at or after that position, and the first position at or after the brace
where the brace depth counter (incremented on `{`, decremented on `}`) returns
to 0. -/
theorem locate_bracketed_name_characterization :
    ∀ (blob lit : List Char), extract_checkpoint_array blob = .ok lit →
      ∃ s b e,
        (occursAt hskNameBracket blob s ∧ ∀ j, j < s → ¬ occursAt hskNameBracket blob j) ∧
        (s ≤ b ∧ blob[b]? = some '\x7b' ∧
          ∀ j, s ≤ j → j < b → blob[j]? ≠ some '\x7b') ∧
        (b ≤ e ∧ e < blob.length ∧
          braceDelta ((blob.drop b).take (e + 1 - b)) = 0 ∧
          ∀ j, b ≤ j → j < e → braceDelta ((blob.drop b).take (j + 1 - b)) ≠ 0) ∧
        lit = (blob.drop (b + 1)).take (e - (b + 1)) := by
  intro blob lit h
  rcases hs : strFind hskNameBracket blob with _ | s
  · simp [extract_checkpoint_array, hs] at h
  rcases hb : findCharFrom '\x7b' blob s with _ | b
  · simp [extract_checkpoint_array, hs, hb] at h
  rcases (findCharFrom_eq_some_iff _ _ _ _).mp hb with ⟨hsb, hbrace, hbmin⟩
  rcases drop_eq_brace_cons blob b hbrace with ⟨hblen, hdropb⟩
  have hpeel : braceScan (blob.drop b) 0 b = braceScan (blob.drop (b + 1)) 1 (b + 1) := by
    rw [hdropb]
    simp [braceScan]
  rcases he : braceScan (blob.drop b) 0 b with _ | e
  · by_cases hnz : braceDelta (blob.drop b) ≠ 0
    · simp [extract_checkpoint_array, hs, hb, he, hnz] at h
    · push_neg at hnz
      rw [hdropb] at he hnz
      rcases braceScan_isSome_of_delta_zero (blob.drop (b + 1)) b hnz with ⟨e, he'⟩
      rw [he] at he'
      cases he'
  · have hlit : lit = (blob.drop (b + 1)).take (e - (b + 1)) := by
      simp [extract_checkpoint_array, hs, hb, he] at h
      exact h.symm
    rcases (strFind_eq_some_iff _ _ _).mp hs with ⟨hsocc, hsmin⟩
    have hfz : FirstZero (blob.drop (b + 1)) 1 (b + 1) e :=
      (braceScan_some_iff (blob.drop (b + 1)) 1 (b + 1) e (by omega)).mp
        (hpeel ▸ he)
    rcases hfz with ⟨hbe, helen, hzero, hmin⟩
    refine ⟨s, b, e, ⟨hsocc, hsmin⟩, ⟨hsb, hbrace, hbmin⟩, ⟨by omega, ?_, ?_, ?_⟩, hlit⟩
    · rw [List.length_drop] at helen
      omega
    · rw [drop_take_delta blob b e hbrace (by omega)]
      rw [show e - b = e - (b + 1) + 1 from by omega]
      omega
    · intro j hj1 hj2
      rcases Nat.eq_or_lt_of_le hj1 with heq | hlt
      · rw [← heq]
        rw [drop_take_delta blob b b hbrace (le_refl b)]
        rw [show b - b = 0 from by omega, List.take_zero]
        simp [braceDelta]
      · have hne := hmin j (by omega) hj2
        rw [drop_take_delta blob b j hbrace (by omega)]
        rw [show j - b = j - (b + 1) + 1 from by omega]
        omega

/-- Witness blob for C2's amended theorem. -/
def c2wblob : List Char := "xx HSK_CHECKPOINT_MAIN[4] = \x7b\"\\x01\"\x7d;".toList

/-- The literal extracted from `c2wblob`. -/
def c2wlit : List Char := "\"\\x01\"".toList

/-- Witness for C2's amended theorem at a concrete blob. -/
theorem locate_bracketed_name_characterization_witness :
    ∃ s b e,
      (occursAt hskNameBracket c2wblob s ∧ ∀ j, j < s → ¬ occursAt hskNameBracket c2wblob j) ∧
      (s ≤ b ∧ c2wblob[b]? = some '\x7b' ∧
        ∀ j, s ≤ j → j < b → c2wblob[j]? ≠ some '\x7b') ∧
      (b ≤ e ∧ e < c2wblob.length ∧
        braceDelta ((c2wblob.drop b).take (e + 1 - b)) = 0 ∧
        ∀ j, b ≤ j → j < e → braceDelta ((c2wblob.drop b).take (j + 1 - b)) ≠ 0) ∧
      c2wlit = (c2wblob.drop (b + 1)).take (e - (b + 1)) :=
  locate_bracketed_name_characterization c2wblob c2wlit (by rfl)

/-! ### C3/C9: error classification of the locator -/

/-- A blob containing the bare array name but never the name followed by `[`. -/
def c3blob : List Char := "HSK_CHECKPOINT_MAIN x".toList

/-- C3 counterexample: the array name occurs in `c3blob`, yet the locator fails with
the not-found error — refuting "fails with NotFoundError exactly when the array name
does not occur in the blob" (the code searches for the name immediately followed by
`[`). -/
theorem notFound_despite_name_occurrence_cex :
    occursAt hskName c3blob 0 ∧
    extract_checkpoint_array c3blob = .error .notFound :=
  ⟨by decide, rfl⟩

/-- C3 (amended): the locator fails with `NotFoundError` exactly when the token
`HSK_CHECKPOINT_MAIN[` (name immediately followed by `[`) occurs nowhere; once the
token is found at `s`, it fails with the no-opening-brace flavour of
`MalformedLiteralError` exactly when no `{` occurs at or after `s`; once the first
`{` is found at `b`, it fails with the unbalanced flavour exactly when the depth
counter never returns to 0 before the input ends; and when the counting loop breaks
it returns the slice strictly between the braces. -/
theorem locate_error_classification :
    ∀ blob : List Char,
      (extract_checkpoint_array blob = .error .notFound ↔
        ∀ i, ¬ occursAt hskNameBracket blob i) ∧
      (∀ s, strFind hskNameBracket blob = some s →
        (extract_checkpoint_array blob = .error .noOpenBrace ↔
          ∀ j, s ≤ j → blob[j]? ≠ some '\x7b')) ∧
      (∀ s b, strFind hskNameBracket blob = some s →
        findCharFrom '\x7b' blob s = some b →
        (extract_checkpoint_array blob = .error .unbalanced ↔
          ∀ j, b ≤ j → j < blob.length →
            braceDelta ((blob.drop b).take (j + 1 - b)) ≠ 0)) ∧
      (∀ s b e, strFind hskNameBracket blob = some s →
        findCharFrom '\x7b' blob s = some b →
        braceScan (blob.drop b) 0 b = some e →
          extract_checkpoint_array blob =
            .ok ((blob.drop (b + 1)).take (e - (b + 1)))) := by
  intro blob
  refine ⟨?_, ?_, ?_, ?_⟩
  · constructor
    · intro h
      rcases hs : strFind hskNameBracket blob with _ | s
      · exact (strFind_eq_none_iff _ _).mp hs
      · exfalso
        rcases hb : findCharFrom '\x7b' blob s with _ | b
        · simp [extract_checkpoint_array, hs, hb] at h
        · rcases he : braceScan (blob.drop b) 0 b with _ | e
          · by_cases hnz : braceDelta (blob.drop b) = 0
            · simp [extract_checkpoint_array, hs, hb, he, hnz] at h
            · simp [extract_checkpoint_array, hs, hb, he, hnz] at h
          · simp [extract_checkpoint_array, hs, hb, he] at h
    · intro hall
      have hnone : strFind hskNameBracket blob = none := (strFind_eq_none_iff _ _).mpr hall
      simp [extract_checkpoint_array, hnone]
  · intro s hs
    constructor
    · intro h
      rcases hb : findCharFrom '\x7b' blob s with _ | b
      · exact (findCharFrom_eq_none_iff _ _ _).mp hb
      · exfalso
        rcases he : braceScan (blob.drop b) 0 b with _ | e
        · by_cases hnz : braceDelta (blob.drop b) = 0
          · simp [extract_checkpoint_array, hs, hb, he, hnz] at h
          · simp [extract_checkpoint_array, hs, hb, he, hnz] at h
        · simp [extract_checkpoint_array, hs, hb, he] at h
    · intro hall
      have hb : findCharFrom '\x7b' blob s = none := (findCharFrom_eq_none_iff _ _ _).mpr hall
      simp [extract_checkpoint_array, hs, hb]
  · intro s b hs hb
    have hbrace := ((findCharFrom_eq_some_iff _ _ _ _).mp hb).2.1
    rcases drop_eq_brace_cons blob b hbrace with ⟨hblen, hdropb⟩
    have hpeel : braceScan (blob.drop b) 0 b = braceScan (blob.drop (b + 1)) 1 (b + 1) := by
      rw [hdropb]
      simp [braceScan]
    constructor
    · intro h
      rcases he : braceScan (blob.drop b) 0 b with _ | e
      · have hnone := (braceScan_none_iff (blob.drop (b + 1)) 1 (b + 1) (by omega)).mp
          (hpeel.symm.trans he)
        intro j hj1 hj2
        rcases Nat.eq_or_lt_of_le hj1 with heq | hlt
        · rw [← heq, drop_take_delta blob b b hbrace (le_refl b),
            show b - b = 0 from by omega, List.take_zero]
          simp [braceDelta]
        · have hne := hnone j (by omega) (by rw [List.length_drop]; omega)
          rw [drop_take_delta blob b j hbrace (by omega),
            show j - b = j - (b + 1) + 1 from by omega]
          omega
      · exfalso
        simp [extract_checkpoint_array, hs, hb, he] at h
    · intro hall
      have hnone : braceScan (blob.drop (b + 1)) 1 (b + 1) = none := by
        apply (braceScan_none_iff _ _ _ (by omega)).mpr
        intro j hj1 hj2
        have hne := hall j (by omega) (by rw [List.length_drop] at hj2; omega)
        rw [drop_take_delta blob b j hbrace (by omega),
          show j - b = j - (b + 1) + 1 from by omega] at hne
        omega
      have he : braceScan (blob.drop b) 0 b = none := hpeel.trans hnone
      have hnz : braceDelta (blob.drop b) ≠ 0 := by
        have hne := hall (blob.length - 1) (by omega) (by omega)
        rw [show blob.length - 1 + 1 - b = (blob.drop b).length from by
              rw [List.length_drop]; omega,
          List.take_length] at hne
        exact hne
      simp [extract_checkpoint_array, hs, hb, he, hnz]
  · intro s b e hs hb he
    simp [extract_checkpoint_array, hs, hb, he]

/-- Witness for C3's amended theorem: the success case on `c6blob` and the
not-found case on `c3blob`. -/
theorem locate_error_classification_witness :
    extract_checkpoint_array c6blob = .ok ((c6blob.drop (24 + 1)).take (35 - (24 + 1))) ∧
    extract_checkpoint_array c3blob = .error .notFound :=
  ⟨(locate_error_classification c6blob).2.2.2 0 24 35 (by rfl) (by rfl) (by rfl),
   ((locate_error_classification c3blob).1).mpr ((strFind_eq_none_iff _ _).mp (by rfl))⟩

/-- C9: the locator matches the array name only when immediately followed by `[`:
if the bare name occurs but is never immediately followed by `[`, it fails with the
not-found error; and the position it keys on is the first occurrence of
name-plus-bracket, so bare-name occurrences before it are skipped. -/
theorem locate_requires_bracket_after_name :
    ∀ blob : List Char,
      ((∃ i, occursAt hskName blob i) → (∀ i, ¬ occursAt hskNameBracket blob i) →
        extract_checkpoint_array blob = .error .notFound) ∧
      (∀ i, strFind hskNameBracket blob = some i →
        occursAt hskNameBracket blob i ∧ ∀ j, j < i → ¬ occursAt hskNameBracket blob j) := by
  intro blob
  constructor
  · intro _ hall
    have hnone : strFind hskNameBracket blob = none := (strFind_eq_none_iff _ _).mpr hall
    simp [extract_checkpoint_array, hnone]
  · intro i hi
    exact (strFind_eq_some_iff _ _ _).mp hi

/-- Witness for C9: the bare name occurs in `c3blob` at position 0, the bracketed
token occurs nowhere, and the locator reports not-found. -/
theorem locate_requires_bracket_after_name_witness :
    extract_checkpoint_array c3blob = .error .notFound ∧
    occursAt hskNameBracket c2wblob 3 ∧
    (∀ j, j < 3 → ¬ occursAt hskNameBracket c2wblob j) :=
  ⟨(locate_requires_bracket_after_name c3blob).1 ⟨0, by decide⟩
      ((strFind_eq_none_iff _ _).mp (by rfl)),
   (locate_requires_bracket_after_name c2wblob).2 3 (by rfl)⟩

/-! ### C8: round trip through encoding, locating and decoding -/

theorem hexDigitChar_lt16 :
    ∀ n : Nat, n < 16 →
      isHexDig (hexDigitChar n) = true ∧ hexDigVal (hexDigitChar n) = n := by
  decide

theorem hexDigitChar_not_brace :
    ∀ n : Nat, hexDigitChar n ≠ '\x7b' ∧ hexDigitChar n ≠ '\x7d' := by
  intro n
  by_cases h : n < 16
  · exact (show ∀ m : Nat, m < 16 → hexDigitChar m ≠ '\x7b' ∧ hexDigitChar m ≠ '\x7d'
      by decide) n h
  · unfold hexDigitChar
    rw [List.getD_eq_default]
    · exact ⟨by decide, by decide⟩
    · have hlen : ("0123456789abcdef".toList).length = 16 := by decide
      omega

theorem encodeBytes_no_brace (bs : List Nat) :
    ∀ c ∈ encodeBytes bs, c ≠ '\x7b' ∧ c ≠ '\x7d' := by
  intro c hc
  unfold encodeBytes at hc
  rw [List.mem_flatten] at hc
  rcases hc with ⟨l, hl, hcl⟩
  rw [List.mem_map] at hl
  rcases hl with ⟨b, _, rfl⟩
  simp only [escByte, List.mem_cons, List.not_mem_nil, or_false] at hcl
  rcases hcl with rfl | rfl | rfl | rfl
  · exact ⟨by decide, by decide⟩
  · exact ⟨by decide, by decide⟩
  · exact hexDigitChar_not_brace (b / 16)
  · exact hexDigitChar_not_brace (b % 16)

theorem braceScan_through (body : List Char)
    (hbody : ∀ c ∈ body, c ≠ '\x7b' ∧ c ≠ '\x7d') :
    ∀ (i : Nat) (tail : List Char),
      braceScan (body ++ '\x7d' :: tail) 1 i = some (i + body.length) := by
  induction body with
  | nil =>
    intro i tail
    simp [braceScan]
  | cons c rest ih =>
    intro i tail
    have hc := hbody c (List.mem_cons_self c rest)
    have hrest : ∀ d ∈ rest, d ≠ '\x7b' ∧ d ≠ '\x7d' :=
      fun d hd => hbody d (List.mem_cons_of_mem c hd)
    have hc1 : (c == '\x7b') = false := by
      simpa using hc.1
    have hc2 : (c == '\x7d') = false := by
      simpa using hc.2
    rw [List.cons_append]
    rw [show braceScan (c :: (rest ++ '\x7d' :: tail)) 1 i
          = braceScan (rest ++ '\x7d' :: tail) 1 (i + 1) from by
        simp [braceScan, hc1, hc2]]
    rw [ih hrest (i + 1) tail]
    congr 1
    simp only [List.length_cons]
    omega

theorem listPrefixOf_append_ext :
    ∀ (p s t : List Char), listPrefixOf p s = true → listPrefixOf p (s ++ t) = true := by
  intro p
  induction p with
  | nil => intro s t _; rfl
  | cons a as ih =>
    intro s t hp
    cases s with
    | nil => cases hp
    | cons b bs =>
      rw [List.cons_append]
      simp only [listPrefixOf, Bool.and_eq_true] at hp ⊢
      exact ⟨hp.1, ih bs t hp.2⟩

theorem strFind_char_append (pre : List Char) (ch : Char) (post : List Char)
    (hpre : ∀ c ∈ pre, (ch == c) = false) :
    strFind [ch] (pre ++ ch :: post) = some pre.length := by
  induction pre with
  | nil =>
    simp only [List.nil_append, List.length_nil]
    apply strFind_eq_zero_of
    simp [listPrefixOf]
  | cons c pre' ih =>
    have hc := hpre c (List.mem_cons_self c pre')
    have hpre' : ∀ d ∈ pre', (ch == d) = false :=
      fun d hd => hpre d (List.mem_cons_of_mem c hd)
    rw [List.cons_append]
    have hno : listPrefixOf [ch] (c :: (pre' ++ ch :: post)) = false := by
      simp [listPrefixOf, hc]
    rw [strFind, if_neg (by simp [hno])]
    rw [ih hpre']
    simp [List.length_cons]

theorem scanHex_encode (bs : List Nat) (hbs : ∀ b ∈ bs, b < 256) :
    ∀ fuel : Nat, (encodeBytes bs).length ≤ fuel →
      (scanHex fuel (encodeBytes bs)).map int16 = bs := by
  induction bs with
  | nil =>
    intro fuel _
    simp [encodeBytes, scanHex]
  | cons b bs' ih =>
    intro fuel hf
    have hb := hbs b (List.mem_cons_self b bs')
    have hbs' : ∀ x ∈ bs', x < 256 := fun x hx => hbs x (List.mem_cons_of_mem b hx)
    have hdiv : b / 16 < 16 := by omega
    have hmod : b % 16 < 16 := by omega
    have henc : encodeBytes (b :: bs')
        = '\\' :: 'x' :: hexDigitChar (b / 16) :: hexDigitChar (b % 16) :: encodeBytes bs' := by
      simp [encodeBytes, escByte]
    rw [henc] at hf ⊢
    rcases fuel with _ | fuel'
    · simp only [List.length_cons] at hf
      omega
    · rw [show scanHex (fuel' + 1)
            ('\\' :: 'x' :: hexDigitChar (b / 16) :: hexDigitChar (b % 16) :: encodeBytes bs')
            = [hexDigitChar (b / 16), hexDigitChar (b % 16)] :: scanHex fuel' (encodeBytes bs')
          from by
          simp [scanHex, (hexDigitChar_lt16 (b / 16) hdiv).1, (hexDigitChar_lt16 (b % 16) hmod).1]]
      rw [List.map_cons, int16_pair]
      rw [(hexDigitChar_lt16 (b / 16) hdiv).2, (hexDigitChar_lt16 (b % 16) hmod).2]
      rw [ih hbs' fuel' (by simp only [List.length_cons] at hf; omega)]
      congr 1
      omega

/-- C8: round trip — encoding a byte sequence into hex-escape array-literal form (a
named array declaration whose braces enclose one `\xNN` token per byte, in order)
and then running the locator followed by the decoder reproduces the original byte
sequence exactly. -/
theorem hex_escape_round_trip :
    ∀ bs : List Nat, (∀ b ∈ bs, b < 256) →
      extract_checkpoint_array (encodeDecl bs) = .ok (encodeBytes bs) ∧
      extract_hex_strings (encodeBytes bs) = bs := by
  intro bs hbs
  have hform : encodeDecl bs
      = "HSK_CHECKPOINT_MAIN[] = ".toList ++ '\x7b' :: (encodeBytes bs ++ '\x7d' :: [';']) := rfl
  constructor
  · have h1 : strFind hskNameBracket (encodeDecl bs) = some 0 := by
      apply strFind_eq_zero_of
      rw [hform]
      exact listPrefixOf_append_ext _ _ _ (by decide)
    have h2 : findCharFrom '\x7b' (encodeDecl bs) 0 = some 24 := by
      unfold findCharFrom
      rw [List.drop_zero, hform, strFind_char_append _ _ _ (by decide)]
      rfl
    have hdrop24 : (encodeDecl bs).drop 24 = '\x7b' :: (encodeBytes bs ++ '\x7d' :: [';']) := by
      rw [hform, List.drop_left' (by decide)]
    have h3 : braceScan ((encodeDecl bs).drop 24) 0 24
        = some (25 + (encodeBytes bs).length) := by
      rw [hdrop24]
      rw [show braceScan ('\x7b' :: (encodeBytes bs ++ '\x7d' :: [';'])) 0 24
            = braceScan (encodeBytes bs ++ '\x7d' :: [';']) 1 25 from by simp [braceScan]]
      rw [braceScan_through (encodeBytes bs) (encodeBytes_no_brace bs) 25 [';']]
    simp only [extract_checkpoint_array, h1, h2, h3]
    have hdrop25 : (encodeDecl bs).drop 25 = encodeBytes bs ++ '\x7d' :: [';'] := by
      rw [show encodeDecl bs
            = ("HSK_CHECKPOINT_MAIN[] = ".toList ++ ['\x7b'])
              ++ (encodeBytes bs ++ '\x7d' :: [';']) from by
          rw [hform, List.append_assoc]
          rfl]
      rw [List.drop_left' (by decide)]
    rw [show (24 : Nat) + 1 = 25 from rfl, hdrop25]
    rw [show 25 + (encodeBytes bs).length - 25 = (encodeBytes bs).length from by omega]
    rw [List.take_left]
  · exact scanHex_encode bs hbs (encodeBytes bs).length (le_refl _)

/-- Witness for C8 at a concrete byte sequence. -/
theorem hex_escape_round_trip_witness :
    extract_checkpoint_array (encodeDecl [0, 171, 255]) = .ok (encodeBytes [0, 171, 255]) ∧
    extract_hex_strings (encodeBytes [0, 171, 255]) = [0, 171, 255] :=
  hex_escape_round_trip [0, 171, 255] (by decide)

/-! ### C10: the log cleaner only deletes whole lines containing "Log." -/

theorem listPrefixOf_of_append_left :
    ∀ (p q s : List Char), listPrefixOf (p ++ q) s = true → listPrefixOf p s = true := by
  intro p
  induction p with
  | nil => intro q s _; rfl
  | cons a as ih =>
    intro q s hp
    cases s with
    | nil => cases hp
    | cons b bs =>
      rw [List.cons_append] at hp
      simp only [listPrefixOf, Bool.and_eq_true] at hp ⊢
      exact ⟨hp.1, ih q bs hp.2⟩

theorem listPrefixOf_drop_of_append :
    ∀ (u v s : List Char), listPrefixOf (u ++ v) s = true →
      listPrefixOf v (s.drop u.length) = true := by
  intro u
  induction u with
  | nil => intro v s hp; exact hp
  | cons a u' ih =>
    intro v s hp
    cases s with
    | nil => cases hp
    | cons b bs =>
      rw [List.cons_append] at hp
      simp only [listPrefixOf, Bool.and_eq_true] at hp
      simp only [List.length_cons, List.drop_succ_cons]
      exact ih v bs hp.2

theorem containsSub_exists (needle hay : List Char) :
    containsSub needle hay = true ↔ ∃ i, occursAt needle hay i := by
  unfold containsSub
  constructor
  · intro h
    rcases hs : strFind needle hay with _ | i
    · rw [hs] at h; cases h
    · exact ⟨i, ((strFind_eq_some_iff _ _ _).mp hs).1⟩
  · rintro ⟨i, hi⟩
    rcases hs : strFind needle hay with _ | j
    · exact absurd hi ((strFind_eq_none_iff _ _).mp hs i)
    · rfl

theorem containsSub_logDot_of_logD (line : List Char)
    (h : containsSub logD line = true) : containsSub logDot line = true := by
  rcases (containsSub_exists _ _).mp h with ⟨i, hi⟩
  apply (containsSub_exists _ _).mpr
  refine ⟨i, ?_⟩
  unfold occursAt at hi ⊢
  rw [show logD = logDot ++ ['d'] from by decide] at hi
  exact listPrefixOf_of_append_left _ _ _ hi

theorem containsSub_logDot_of_android (line : List Char)
    (h : containsSub androidLogD line = true) : containsSub logDot line = true := by
  rcases (containsSub_exists _ _).mp h with ⟨i, hi⟩
  apply (containsSub_exists _ _).mpr
  unfold occursAt at hi
  rw [show androidLogD = "android.util.".toList ++ (logDot ++ ['d']) from by decide] at hi
  have h2 := listPrefixOf_drop_of_append _ _ _ hi
  have h3 := listPrefixOf_of_append_left _ _ _ h2
  refine ⟨i + ("android.util.".toList).length, ?_⟩
  unfold occursAt
  rw [List.drop_drop] at h3
  exact h3

/-- C10: the log cleaner only ever deletes whole lines, and only lines containing
the substring "Log.": for every input (and for every choice of the two helper
predicates), the output lines are a subsequence of the input lines in the original
order, and the lines in which "Log." does not occur are preserved verbatim (the
output and input agree on their "Log."-free sublists). -/
theorem clean_file_only_deletes_log_lines :
    ∀ (isLog sens : List Char → Bool) (lines : List (List Char)),
      (clean_file_lines isLog sens lines).Sublist lines ∧
      (clean_file_lines isLog sens lines).filter (fun l => !containsSub logDot l)
        = lines.filter (fun l => !containsSub logDot l) := by
  intro isLog sens lines
  induction lines with
  | nil => exact ⟨List.Sublist.refl [], rfl⟩
  | cons line rest ih =>
    by_cases hc1 : ((containsSub logD line || containsSub androidLogD line) && isLog line) = true
    · have hremove : clean_file_lines isLog sens (line :: rest)
          = clean_file_lines isLog sens rest := by
        simp [clean_file_lines, hc1]
      have hlog : containsSub logDot line = true := by
        rcases (Bool.and_eq_true _ _).mp hc1 with ⟨hor, _⟩
        rcases (show containsSub logD line = true ∨ containsSub androidLogD line = true by
          simpa using hor) with h | h
        · exact containsSub_logDot_of_logD line h
        · exact containsSub_logDot_of_android line h
      refine ⟨?_, ?_⟩
      · rw [hremove]
        exact (ih.1).cons line
      · rw [hremove, List.filter_cons]
        rw [show (!containsSub logDot line) = false from by rw [hlog]; rfl]
        simp only [Bool.false_eq_true, if_false]
        exact ih.2
    · by_cases hc2 : (containsSub logDot line && sens line) = true
      · have hremove : clean_file_lines isLog sens (line :: rest)
            = clean_file_lines isLog sens rest := by
          simp [clean_file_lines, hc1, hc2]
        have hlog : containsSub logDot line = true := ((Bool.and_eq_true _ _).mp hc2).1
        refine ⟨?_, ?_⟩
        · rw [hremove]
          exact (ih.1).cons line
        · rw [hremove, List.filter_cons]
          rw [show (!containsSub logDot line) = false from by rw [hlog]; rfl]
          simp only [Bool.false_eq_true, if_false]
          exact ih.2
      · have hkeep : clean_file_lines isLog sens (line :: rest)
            = line :: clean_file_lines isLog sens rest := by
          simp [clean_file_lines, hc1, hc2]
        refine ⟨?_, ?_⟩
        · rw [hkeep]
          exact (ih.1).cons₂ line
        · rw [hkeep, List.filter_cons, List.filter_cons, ih.2]
